import Mathlib

/-
Verification of the toffee desktop-file reader core.

The definitions below are a shallow embedding of the Rust sources:
  * crates/desktop-entry/src/parser.rs   (line grammar, value grammars)
  * crates/desktop-file/src/lib.rs       (document assembler, key resolver)
  * crates/desktop-file/src/desktop_entry.rs (Exec command-line grammar)

Parsers are modelled as functions on List Char that return the parsed
value together with the unconsumed remainder (PEG rules are committed:
once an alternative or an optional/repetition item succeeds, it is never
retried, which the deterministic functions below reproduce).  A peg
pub rule invoked from outside must consume its whole input; the top
level functions below check that the remainder is empty.
-/

namespace Toffee

/-- Lines of a desktop file, from `enum Line` in parser.rs. -/
inductive Line where
  | blank : Line
  | comment (c : String) : Line
  | groupHeader (gn : String) : Line
  | entry (k v : String) : Line
deriving DecidableEq, Repr

/-- Characters allowed in a key: `['A'..='Z' | 'a'..='z' | '0'..='9' | '-']`. -/
def isKeyChar (c : Char) : Bool :=
  ('A' ≤ c && c ≤ 'Z') || ('a' ≤ c && c ≤ 'z') || ('0' ≤ c && c ≤ '9') || c = '-'

/-- Characters allowed in a locale suffix:
`['A'..='Z' | 'a'..='z' | '0'..='9' | '-' | '_' | '@']`. -/
def isLocaleChar (c : Char) : Bool :=
  isKeyChar c || c = '_' || c = '@'

/-- `rule line_blank() = "\n"` -/
def lineBlank : List Char → Option (List Char)
  | [] => none
  | c :: rest => if c = '\n' then some rest else none

/-- `rule line_comment() = "#" c:$([^'\n']*) "\n"` -/
def lineComment (cs : List Char) : Option (String × List Char) :=
  match cs with
  | [] => none
  | c :: rest =>
    if c = '#' then
      let body := rest.takeWhile (fun d => d ≠ '\n')
      match rest.dropWhile (fun d => d ≠ '\n') with
      | d :: r => if d = '\n' then some (body.asString, r) else none
      | [] => none
    else none

/-- `rule line_group_header() = "[" gn:$([^'[' | ']']+) "]\n"` -/
def lineGroupHeader (cs : List Char) : Option (String × List Char) :=
  match cs with
  | [] => none
  | c :: rest =>
    if c = '[' then
      let gn := rest.takeWhile (fun d => d ≠ '[' && d ≠ ']')
      if gn.isEmpty then none
      else
        match rest.dropWhile (fun d => d ≠ '[' && d ≠ ']') with
        | d :: e :: r => if d = ']' && e = '\n' then some (gn.asString, r) else none
        | _ => none
    else none

/-- `rule locale() = "[" [A-Za-z0-9-_@]* "]"` and
`rule key() = $([A-Za-z0-9-]+ locale()?)`.
Returns the full matched key text (base plus any locale suffix) and the
remainder; the possessive `locale()?` is reproduced: if the suffix fails
to close, the key is the base alone. -/
def keyRule (cs : List Char) : Option (List Char × List Char) :=
  let k := cs.takeWhile isKeyChar
  let rest := cs.dropWhile isKeyChar
  if k.isEmpty then none
  else
    match rest with
    | c :: after =>
      if c = '[' then
        let loc := after.takeWhile isLocaleChar
        match after.dropWhile isLocaleChar with
        | d :: r => if d = ']' then some (k ++ '[' :: (loc ++ [']']), r) else some (k, rest)
        | [] => some (k, rest)
      else some (k, rest)
    | [] => some (k, rest)

/-- `rule line_entry() = k:key() " "* "=" " "* v:value() "\n"` with
`rule value() = $([^'\n']*)`. -/
def lineEntry (cs : List Char) : Option ((String × String) × List Char) :=
  match keyRule cs with
  | none => none
  | some (k, rest) =>
    match rest.dropWhile (fun d => d = ' ') with
    | c :: rest2 =>
      if c = '=' then
        let rest3 := rest2.dropWhile (fun d => d = ' ')
        let v := rest3.takeWhile (fun d => d ≠ '\n')
        match rest3.dropWhile (fun d => d ≠ '\n') with
        | d :: r => if d = '\n' then some ((k.asString, v.asString), r) else none
        | [] => none
      else none
    | [] => none

/-- `rule line() = line_blank() / line_comment() / line_group_header() / line_entry()`
(ordered choice). -/
def lineRule (cs : List Char) : Option (Line × List Char) :=
  match lineBlank cs with
  | some r => some (Line.blank, r)
  | none =>
    match lineComment cs with
    | some (c, r) => some (Line.comment c, r)
    | none =>
      match lineGroupHeader cs with
      | some (g, r) => some (Line.groupHeader g, r)
      | none =>
        match lineEntry cs with
        | some (kv, r) => some (Line.entry kv.1 kv.2, r)
        | none => none

/-- Work horse of `pub rule file() = line()*`.  The fuel argument only
bounds the recursion depth; since every line consumes at least one
character, `cs.length + 1` is always enough. -/
def fileAux : Nat → List Char → Option (List Line)
  | _, [] => some []
  | 0, _ :: _ => none
  | fuel + 1, c :: cs =>
    match lineRule (c :: cs) with
    | some (l, rest) => (fileAux fuel rest).map (fun ls => l :: ls)
    | none => none

/-- `pub rule file() = line()*`; as a pub rule it must consume the whole
input (which `fileAux` enforces via its base cases). -/
def fileRule (cs : List Char) : Option (List Line) :=
  fileAux (cs.length + 1) cs

/-- Errors of `DesktopFile::parse`, from `enum DesktopFileError`. -/
inductive DesktopFileError where
  | parseFail : DesktopFileError
  | entryOutsideOfGroup (k : String) : DesktopFileError
  | duplicateGroup (g : String) : DesktopFileError
  | duplicateKey (k : String) : DesktopFileError
deriving DecidableEq, Repr

/-- Association-list lookup, modelling `HashMap::get` (keys inserted at
most once, so the first hit is the only hit). -/
def assocFind {α : Type} (k : String) : List (String × α) → Option α
  | [] => none
  | (k2, v) :: rest => if k2 = k then some v else assocFind k rest

/-- One group of entries. -/
abbrev GroupEntries := List (String × String)

/-- The document: group name to group entries, modelling the
`HashMap<&str, Group>` of `DesktopFile`. -/
abbrev Document := List (String × GroupEntries)

/-- Replacing the entries of group `g`, modelling
`groups.get_mut(group_name)` followed by `entries.insert` (the map holds
at most one binding per name, so updating the first match is the
HashMap mutation). -/
def insertIntoGroup (g k v : String) : Document → Document
  | [] => []
  | (n, es) :: rest =>
    if n = g then (n, es ++ [(k, v)]) :: rest
    else (n, es) :: insertIntoGroup g k v rest

/-- Assembler state: the groups built so far and the currently open
group name (`current_group_name`). -/
structure AsmState where
  groups : Document
  current : Option String
deriving DecidableEq, Repr

/-- One step of the loop body of `DesktopFile::parse`. -/
def stepLine (st : AsmState) : Line → Except DesktopFileError AsmState
  | Line.blank => Except.ok st
  | Line.comment _ => Except.ok st
  | Line.groupHeader g =>
    if (assocFind g st.groups).isSome then Except.error (DesktopFileError.duplicateGroup g)
    else Except.ok ⟨st.groups ++ [(g, [])], some g⟩
  | Line.entry k v =>
    match st.current with
    | none => Except.error (DesktopFileError.entryOutsideOfGroup k)
    | some g =>
      if (assocFind k ((assocFind g st.groups).getD [])).isSome then
        Except.error (DesktopFileError.duplicateKey k)
      else Except.ok ⟨insertIntoGroup g k v st.groups, some g⟩

/-- The assembler loop of `DesktopFile::parse` over the parsed lines. -/
def runLines (st : AsmState) : List Line → Except DesktopFileError AsmState
  | [] => Except.ok st
  | l :: rest =>
    match stepLine st l with
    | Except.ok st2 => runLines st2 rest
    | Except.error e => Except.error e

/-- Assembling a line sequence into a document (the loop of
`DesktopFile::parse` after `file_parser::file` has succeeded). -/
def assembleLines (lines : List Line) : Except DesktopFileError Document :=
  (runLines ⟨[], none⟩ lines).map AsmState.groups

/-- `DesktopFile::parse`. -/
def parseDesktopFile (cs : List Char) : Except DesktopFileError Document :=
  match fileRule cs with
  | none => Except.error DesktopFileError.parseFail
  | some lines => assembleLines lines

/-- String-level wrapper for `DesktopFile::parse`. -/
def parseS (s : String) : Except DesktopFileError Document :=
  parseDesktopFile s.data

/-- String-level wrapper for the file rule. -/
def fileS (s : String) : Option (List Line) :=
  fileRule s.data

/-- String-level wrapper for the line rule. -/
def lineS (s : String) : Option (Line × List Char) :=
  lineRule s.data

/-- String-level wrapper for the entry-line rule. -/
def lineEntryS (s : String) : Option ((String × String) × List Char) :=
  lineEntry s.data

/-- `value_parser::string` (Semicolons::Raw): many of
`string_escape / string_char`.  In raw mode the escapes `\s \n \t \r \\`
decode; `\;` is not an escape (its action errors), so a backslash whose
follower is not in the escape set is taken literally by `string_char`,
and a raw `;` is an ordinary character.  The rule accepts every input,
so it is a total function. -/
def stringRaw : List Char → List Char
  | [] => []
  | c :: rest =>
    if c = '\\' then
      match rest with
      | [] => ['\\']
      | d :: r =>
        if d = 's' then ' ' :: stringRaw r
        else if d = 'n' then '\n' :: stringRaw r
        else if d = 't' then '\t' :: stringRaw r
        else if d = 'r' then '\r' :: stringRaw r
        else if d = '\\' then '\\' :: stringRaw r
        else '\\' :: stringRaw (d :: r)
    else c :: stringRaw rest

/-- `FromRaw for String` / `value_parser::string` on a String. -/
def stringS (s : String) : String :=
  (stringRaw s.data).asString

/-- One list element: `string_internal(Semicolons::Escaped)`.  Here `\;`
decodes to `;` and an unescaped `;` ends the element (it is the list
separator).  Returns the element and the unconsumed remainder, which is
empty or starts with `;`. -/
def stringItem : List Char → List Char × List Char
  | [] => ([], [])
  | c :: rest =>
    if c = ';' then ([], c :: rest)
    else if c = '\\' then
      match rest with
      | [] => (['\\'], [])
      | d :: r =>
        if d = 's' then let p := stringItem r; (' ' :: p.1, p.2)
        else if d = 'n' then let p := stringItem r; ('\n' :: p.1, p.2)
        else if d = 't' then let p := stringItem r; ('\t' :: p.1, p.2)
        else if d = 'r' then let p := stringItem r; ('\r' :: p.1, p.2)
        else if d = ';' then let p := stringItem r; (';' :: p.1, p.2)
        else if d = '\\' then let p := stringItem r; ('\\' :: p.1, p.2)
        else let p := stringItem (d :: r); ('\\' :: p.1, p.2)
    else let p := stringItem rest; (c :: p.1, p.2)

/-- `string_escaped_semicolons() ** ";"`: elements separated by `;`.
An element may be empty, so the repetition always yields at least one
element; the separator consumes a character, so `cs.length + 1` fuel is
always enough. -/
def stringItems : Nat → List Char → List (List Char)
  | 0, cs => [(stringItem cs).1]
  | fuel + 1, cs =>
    let p := stringItem cs
    match p.2 with
    | ';' :: r => p.1 :: stringItems fuel r
    | _ => [p.1]

/-- `value_parser::strings`: split, decode, then drop a trailing empty
element when it is not the only element (`if len > 1 && ss[len-1].is_empty()`). -/
def stringsRaw (cs : List Char) : List String :=
  let ss := (stringItems (cs.length + 1) cs).map List.asString
  if 1 < ss.length ∧ ss.getLast? = some "" then ss.dropLast else ss

/-- `FromRaw for Vec<String>` / `value_parser::strings` on a String. -/
def stringsS (s : String) : List String :=
  stringsRaw s.data

/-- `LocalizedKey` lookup descriptor. -/
structure LocalizedKey where
  key : String
  lang : String
  country : Option String := none
  modifier : Option String := none
deriving DecidableEq, Repr

/-- `LocalizedKey::matches`: the ordered candidate list. -/
def LocalizedKey.matches (lk : LocalizedKey) : List String :=
  (match lk.country, lk.modifier with
   | some c, some m => [lk.key ++ "[" ++ lk.lang ++ "_" ++ c ++ "@" ++ m ++ "]"]
   | _, _ => []) ++
  (match lk.country with
   | some c => [lk.key ++ "[" ++ lk.lang ++ "_" ++ c ++ "]"]
   | none => []) ++
  (match lk.modifier with
   | some m => [lk.key ++ "[" ++ lk.lang ++ "@" ++ m ++ "]"]
   | none => []) ++
  [lk.key ++ "[" ++ lk.lang ++ "]", lk.key]

/-- `enum Key`. -/
inductive Key where
  | str (s : String) : Key
  | localized (lk : LocalizedKey) : Key

/-- `Group::get_raw`: a plain key is looked up directly; a localized key
tries its candidates in order and returns the first hit
(`matches().into_iter().flat_map(get).next()`). -/
def getRaw (entries : GroupEntries) : Key → Option String
  | Key.str k => assocFind k entries
  | Key.localized lk => lk.matches.findSome? (fun k => assocFind k entries)

/-- `enum ExecArgument`. -/
inductive ExecArgument where
  | str (s : String) : ExecArgument
  | fieldCode (c : Char) : ExecArgument
deriving DecidableEq, Repr

/-- `struct Exec`. -/
structure Exec where
  program : String
  arguments : List ExecArgument
deriving DecidableEq, Repr

/-- `rule argument_field_code() = "%" fc:[^' ']`, wrapped in the
argument action that turns `%%` into the literal string `%`. -/
def fieldCodeArg : List Char → Option (ExecArgument × List Char)
  | c :: d :: rest =>
    if c = '%' then
      if d = ' ' then none
      else some (if d = '%' then ExecArgument.str "%" else ExecArgument.fieldCode d, rest)
    else none
  | _ => none

/-- Interior of `argument_quoted_string`: many of
`argument_quoted_string_escape / argument_quoted_string_char` followed by
the closing quote.  `\<any>` decodes to that character; an unescaped `"`
closes; a bare `\` at the end, or end of input, fails. -/
def quotedBody : List Char → Option (List Char × List Char)
  | [] => none
  | c :: rest =>
    if c = '"' then some ([], rest)
    else if c = '\\' then
      match rest with
      | [] => none
      | d :: r => (quotedBody r).map (fun p => (d :: p.1, p.2))
    else (quotedBody rest).map (fun p => (c :: p.1, p.2))

/-- `rule argument_quoted_string() = "\"" (escape / char)* "\""`. -/
def quotedArg : List Char → Option (ExecArgument × List Char)
  | c :: rest =>
    if c = '"' then (quotedBody rest).map (fun p => (ExecArgument.str p.1.asString, p.2))
    else none
  | [] => none

/-- `rule argument_string() = $([^' ']+)`, the bare-literal fallback. -/
def bareArg (cs : List Char) : Option (ExecArgument × List Char) :=
  let t := cs.takeWhile (fun c => c ≠ ' ')
  if t.isEmpty then none
  else some (ExecArgument.str t.asString, cs.dropWhile (fun c => c ≠ ' '))

/-- `rule argument()`: ordered choice field-code / quoted / bare. -/
def argumentRule (cs : List Char) : Option (ExecArgument × List Char) :=
  match fieldCodeArg cs with
  | some r => some r
  | none =>
    match quotedArg cs with
    | some r => some r
    | none => bareArg cs

/-- Repetition tail of `argument() ** " "`: repeatedly a separating
space then an argument; a space not followed by an argument is left
unconsumed (the separator match is rewound).  Every iteration consumes
at least two characters, so `cs.length + 1` fuel is always enough. -/
def argsAux : Nat → List Char → List ExecArgument × List Char
  | 0, cs => ([], cs)
  | fuel + 1, cs =>
    match cs with
    | ' ' :: r =>
      match argumentRule r with
      | some (a, rest) =>
        let p := argsAux fuel rest
        (a :: p.1, p.2)
      | none => ([], cs)
    | _ => ([], cs)

/-- `argument() ** " "` (zero or more arguments). -/
def argsRule (cs : List Char) : List ExecArgument × List Char :=
  match argumentRule cs with
  | none => ([], cs)
  | some (a, rest) =>
    let p := argsAux (cs.length + 1) rest
    (a :: p.1, p.2)

/-- `pub rule exec() = p:program() a:(" " a:(argument() ** " "))?` with
`rule program() = $([^' ']+)`; as a pub rule the whole input must be
consumed. -/
def execRule (cs : List Char) : Option (String × List ExecArgument) :=
  let p := cs.takeWhile (fun c => c ≠ ' ')
  if p.isEmpty then none
  else
    match cs.dropWhile (fun c => c ≠ ' ') with
    | [] => some (p.asString, [])
    | c :: r =>
      if c = ' ' then
        let a := argsRule r
        if a.2.isEmpty then some (p.asString, a.1) else none
      else none

/-- String-level wrapper for the exec rule. -/
def execS (s : String) : Option (String × List ExecArgument) :=
  execRule s.data

/-- `FromValue for Exec`: the raw value is first decoded by the plain
string grammar (`String::from_value`, which cannot fail), and the result
is then tokenized by `exec_parser::exec`. -/
def execFromValue (v : String) : Option Exec :=
  (execRule (stringRaw v.data)).map (fun pa => ⟨pa.1, pa.2⟩)

/-- Number of group-header lines naming `g` in a line sequence (a
measure used to state the duplicate-group property). -/
def countHeader (g : String) (lines : List Line) : Nat :=
  lines.countP (fun l => decide (l = Line.groupHeader g))

instance {ε α : Type} [DecidableEq ε] [DecidableEq α] : DecidableEq (Except ε α) := by
  intro a b
  cases a with
  | ok x =>
    cases b with
    | ok y => exact if h : x = y then Decidable.isTrue (by rw [h]) else
        Decidable.isFalse (by intro hh; injection hh; contradiction)
    | error f => exact Decidable.isFalse (by intro hh; exact Except.noConfusion hh)
  | error e =>
    cases b with
    | ok y => exact Decidable.isFalse (by intro hh; exact Except.noConfusion hh)
    | error f => exact if h : e = f then Decidable.isTrue (by rw [h]) else
        Decidable.isFalse (by intro hh; injection hh; contradiction)

/-! ## Helper lemmas -/

theorem twdw_append {α : Type} (p : α → Bool) (xs ys : List α)
    (h1 : ∀ c ∈ xs, p c = true) (h2 : ∀ d, ys.head? = some d → p d = false) :
    (xs ++ ys).takeWhile p = xs ∧ (xs ++ ys).dropWhile p = ys := by
  induction xs with
  | nil =>
    cases ys with
    | nil => simp
    | cons d t =>
      have hd : p d = false := h2 d rfl
      simp [List.takeWhile_cons, List.dropWhile_cons, hd]
  | cons x xs ih =>
    have hx : p x = true := h1 x (List.mem_cons_self x xs)
    have ih2 := ih (fun c hc => h1 c (List.mem_cons_of_mem x hc))
    simp [List.takeWhile_cons, List.dropWhile_cons, hx, ih2.1, ih2.2]

theorem dropWhile_head_false {α : Type} (p : α → Bool) (ys : List α)
    (h : ∀ d, ys.head? = some d → p d = false) : ys.dropWhile p = ys := by
  have := twdw_append p [] ys (by simp) h
  simpa using this.2

theorem assocFind_append_some {α : Type} {k : String} {xs : List (String × α)} {v : α}
    (ys : List (String × α)) (h : assocFind k xs = some v) :
    assocFind k (xs ++ ys) = some v := by
  induction xs with
  | nil => simp [assocFind] at h
  | cons p2 xs ih =>
    obtain ⟨k2, w⟩ := p2
    by_cases hk : k2 = k
    · simp [assocFind, hk] at h ⊢; exact h
    · simp [assocFind, hk] at h ⊢; exact ih h

theorem assocFind_append_none {α : Type} {k : String} {xs : List (String × α)}
    (ys : List (String × α)) (h : assocFind k xs = none) :
    assocFind k (xs ++ ys) = assocFind k ys := by
  induction xs with
  | nil => simp
  | cons p2 xs ih =>
    obtain ⟨k2, w⟩ := p2
    by_cases hk : k2 = k
    · simp [assocFind, hk] at h
    · simp [assocFind, hk] at h ⊢; exact ih h

theorem assocFind_insertIntoGroup (g2 g k v : String) (gs : Document) :
    (assocFind g2 (insertIntoGroup g k v gs)).isSome = (assocFind g2 gs).isSome := by
  induction gs with
  | nil => rfl
  | cons p tail ih =>
    obtain ⟨n, es⟩ := p
    by_cases hg : n = g
    · subst hg
      by_cases h2 : n = g2
      · subst h2
        simp [insertIntoGroup, assocFind]
      · simp [insertIntoGroup, assocFind, h2]
    · by_cases h2 : n = g2
      · subst h2
        simp [insertIntoGroup, assocFind, hg]
      · simpa [insertIntoGroup, assocFind, hg, h2] using ih

theorem runLines_append (xs : List Line) (st : AsmState) (ys : List Line) :
    runLines st (xs ++ ys) =
      match runLines st xs with
      | Except.ok st2 => runLines st2 ys
      | Except.error e => Except.error e := by
  induction xs generalizing st with
  | nil => simp [runLines]
  | cons l rest ih =>
    cases hstep : stepLine st l with
    | ok st2 => simp [runLines, hstep, ih]
    | error e => simp [runLines, hstep]

theorem runLines_dup_count (lines : List Line) (st : AsmState) (g : String)
    (h : runLines st lines = Except.error (DesktopFileError.duplicateGroup g)) :
    (if (assocFind g st.groups).isSome then 1 else 2) ≤ countHeader g lines := by
  induction lines generalizing st with
  | nil => simp [runLines] at h
  | cons l rest ih =>
    cases l with
    | blank =>
      rw [runLines, stepLine] at h
      have := ih st h
      simpa [countHeader, List.countP_cons] using this
    | comment c =>
      rw [runLines, stepLine] at h
      have := ih st h
      simpa [countHeader, List.countP_cons] using this
    | groupHeader n =>
      by_cases hdup : (assocFind n st.groups).isSome
      · have hng : n = g := by
          simp only [runLines, stepLine, if_pos hdup] at h
          simpa using h
        subst hng
        rw [if_pos hdup]
        simp [countHeader, List.countP_cons]
      · simp only [runLines, stepLine, if_neg hdup] at h
        have ih2 := ih ⟨st.groups ++ [(n, [])], some n⟩ h
        by_cases hn : n = g
        · subst hn
          have hsome : (assocFind n (st.groups ++ [(n, [])])).isSome = true := by
            cases hfind : assocFind n st.groups with
            | some v => simp [assocFind_append_some _ hfind]
            | none => rw [assocFind_append_none _ hfind]; simp [assocFind]
          rw [hsome] at ih2
          simp only [if_true] at ih2
          have hcount : countHeader n (Line.groupHeader n :: rest) =
              countHeader n rest + 1 := by
            simp [countHeader, List.countP_cons]
          rw [hcount]
          split <;> omega
        · have hkeep : (assocFind g (st.groups ++ [(n, [])])).isSome =
              (assocFind g st.groups).isSome := by
            cases hfind : assocFind g st.groups with
            | some v => simp [assocFind_append_some _ hfind, hfind]
            | none =>
              rw [assocFind_append_none _ hfind]
              simp [assocFind, hn]
          rw [hkeep] at ih2
          have hcount : countHeader g (Line.groupHeader n :: rest) =
              countHeader g rest := by
            simp [countHeader, List.countP_cons, hn]
          rw [hcount]
          exact ih2
    | entry k v =>
      cases hcur : st.current with
      | none => simp [runLines, stepLine, hcur] at h
      | some grp =>
        by_cases hk : (assocFind k ((assocFind grp st.groups).getD [])).isSome
        · simp [runLines, stepLine, hcur, if_pos hk] at h
        · simp only [runLines, stepLine, hcur, if_neg hk] at h
          have ih2 := ih ⟨insertIntoGroup grp k v st.groups, some grp⟩ h
          rw [assocFind_insertIntoGroup] at ih2
          have hcount : countHeader g (Line.entry k v :: rest) = countHeader g rest := by
            simp [countHeader, List.countP_cons]
          rw [hcount]
          exact ih2

theorem keyRule_split (cs k rest : List Char) (h : keyRule cs = some (k, rest)) :
    cs = k ++ rest := by
  have hsplit := List.takeWhile_append_dropWhile isKeyChar cs
  simp only [keyRule] at h
  by_cases he : (cs.takeWhile isKeyChar).isEmpty
  · simp [he] at h
  · rw [if_neg he] at h
    obtain ⟨tk, htk⟩ : ∃ x, cs.takeWhile isKeyChar = x := ⟨_, rfl⟩
    rw [htk] at h hsplit
    cases hd : cs.dropWhile isKeyChar with
    | nil =>
      rw [hd] at h hsplit
      simp only [Option.some.injEq, Prod.mk.injEq] at h
      obtain ⟨hk, hr⟩ := h
      subst hk; subst hr
      simpa using hsplit.symm
    | cons c after =>
      rw [hd] at h hsplit
      simp only [] at h
      by_cases hc : c = '['
      · subst hc
        rw [if_pos rfl] at h
        have hafter := List.takeWhile_append_dropWhile isLocaleChar after
        obtain ⟨tl, htl⟩ : ∃ x, after.takeWhile isLocaleChar = x := ⟨_, rfl⟩
        rw [htl] at h hafter
        cases hd2 : after.dropWhile isLocaleChar with
        | nil =>
          rw [hd2] at h
          simp only [] at h
          simp only [Option.some.injEq, Prod.mk.injEq] at h
          obtain ⟨hk, hr⟩ := h
          subst hk; subst hr
          exact hsplit.symm
        | cons d r =>
          rw [hd2] at h hafter
          simp only [] at h
          by_cases hdr : d = ']'
          · subst hdr
            rw [if_pos rfl] at h
            simp only [Option.some.injEq, Prod.mk.injEq] at h
            obtain ⟨hk, hr⟩ := h
            subst hk; subst hr
            rw [← hsplit, ← hafter]
            simp
          · rw [if_neg hdr] at h
            simp only [Option.some.injEq, Prod.mk.injEq] at h
            obtain ⟨hk, hr⟩ := h
            subst hk; subst hr
            exact hsplit.symm
      · rw [if_neg hc] at h
        simp only [Option.some.injEq, Prod.mk.injEq] at h
        obtain ⟨hk, hr⟩ := h
        subst hk; subst hr
        exact hsplit.symm

theorem lineBlank_split (cs rest : List Char) (h : lineBlank cs = some rest) :
    cs = '\n' :: rest := by
  cases cs with
  | nil => simp [lineBlank] at h
  | cons c t =>
    by_cases hc : c = '\n'
    · subst hc
      simp [lineBlank] at h
      rw [h]
    · simp [lineBlank, hc] at h

theorem lineComment_split (cs : List Char) (s : String) (rest : List Char)
    (h : lineComment cs = some (s, rest)) : ∃ pre, cs = pre ++ '\n' :: rest := by
  cases cs with
  | nil => simp [lineComment] at h
  | cons c t =>
    by_cases hc : c = '#'
    · subst hc
      rw [lineComment, if_pos rfl] at h
      simp only [] at h
      have hsplit := List.takeWhile_append_dropWhile (fun d => decide (d ≠ '\n')) t
      obtain ⟨tk, htk⟩ : ∃ x, t.takeWhile (fun d => decide (d ≠ '\n')) = x := ⟨_, rfl⟩
      rw [htk] at hsplit
      cases hd : t.dropWhile (fun d => decide (d ≠ '\n')) with
      | nil => rw [hd] at h; simp at h
      | cons d r =>
        rw [hd] at h hsplit
        simp only [] at h
        by_cases hdn : d = '\n'
        · subst hdn
          rw [if_pos rfl] at h
          simp only [Option.some.injEq, Prod.mk.injEq] at h
          obtain ⟨hs, hr⟩ := h
          subst hr
          exact ⟨'#' :: tk, by rw [← hsplit]; simp [htk]⟩
        · rw [if_neg hdn] at h; simp at h
    · simp [lineComment, hc] at h

theorem lineGroupHeader_split (cs : List Char) (s : String) (rest : List Char)
    (h : lineGroupHeader cs = some (s, rest)) : ∃ pre, cs = pre ++ '\n' :: rest := by
  cases cs with
  | nil => simp [lineGroupHeader] at h
  | cons c t =>
    by_cases hc : c = '['
    · subst hc
      rw [lineGroupHeader, if_pos rfl] at h
      by_cases he : (t.takeWhile (fun d => d ≠ '[' && d ≠ ']')).isEmpty
      · rw [if_pos he] at h; simp at h
      · rw [if_neg he] at h
        have hsplit := List.takeWhile_append_dropWhile (fun d => decide (d ≠ '[') && decide (d ≠ ']')) t
        obtain ⟨tk, htk⟩ : ∃ x, t.takeWhile (fun d => decide (d ≠ '[') && decide (d ≠ ']')) = x := ⟨_, rfl⟩
        rw [htk] at hsplit
        cases hd : t.dropWhile (fun d => decide (d ≠ '[') && decide (d ≠ ']')) with
        | nil => rw [hd] at h; simp at h
        | cons d t2 =>
          cases t2 with
          | nil => rw [hd] at h; simp at h
          | cons e r =>
            rw [hd] at h hsplit
            simp only [] at h
            by_cases hde : d = ']' ∧ e = '\n'
            · obtain ⟨hd1, he1⟩ := hde
              subst hd1; subst he1
              rw [if_pos (by simp)] at h
              simp only [Option.some.injEq, Prod.mk.injEq] at h
              obtain ⟨hs, hr⟩ := h
              subst hr
              exact ⟨'[' :: (tk ++ [']']), by rw [← hsplit]; simp⟩
            · rw [if_neg (by simpa using fun h1 h2 => hde ⟨h1, h2⟩)] at h
              simp at h
    · simp [lineGroupHeader, hc] at h

theorem lineEntry_split (cs : List Char) (kv : String × String) (rest : List Char)
    (h : lineEntry cs = some (kv, rest)) : ∃ pre, cs = pre ++ '\n' :: rest := by
  rw [lineEntry] at h
  cases hkey : keyRule cs with
  | none => rw [hkey] at h; simp at h
  | some kr =>
    obtain ⟨k, rest0⟩ := kr
    rw [hkey] at h
    simp only [] at h
    have hcs := keyRule_split cs k rest0 hkey
    have hsp := List.takeWhile_append_dropWhile (fun d => decide (d = ' ')) rest0
    obtain ⟨sp1, hsp1⟩ : ∃ x, rest0.takeWhile (fun d => decide (d = ' ')) = x := ⟨_, rfl⟩
    rw [hsp1] at hsp
    cases hd1 : rest0.dropWhile (fun d => decide (d = ' ')) with
    | nil => rw [hd1] at h; simp at h
    | cons c rest2 =>
      rw [hd1] at h hsp
      simp only [] at h
      by_cases hc : c = '='
      · subst hc
        rw [if_pos rfl] at h
        have hsp2 := List.takeWhile_append_dropWhile (fun d => decide (d = ' ')) rest2
        obtain ⟨sp2, hsp21⟩ : ∃ x, rest2.takeWhile (fun d => decide (d = ' ')) = x := ⟨_, rfl⟩
        rw [hsp21] at hsp2
        obtain ⟨rest3, hr3⟩ : ∃ x, rest2.dropWhile (fun d => decide (d = ' ')) = x := ⟨_, rfl⟩
        rw [hr3] at h hsp2
        have hsp3 := List.takeWhile_append_dropWhile (fun d => decide (d ≠ '\n')) rest3
        obtain ⟨v1, hv1⟩ : ∃ x, rest3.takeWhile (fun d => decide (d ≠ '\n')) = x := ⟨_, rfl⟩
        rw [hv1] at h hsp3
        cases hd3 : rest3.dropWhile (fun d => decide (d ≠ '\n')) with
        | nil => rw [hd3] at h; simp at h
        | cons d r =>
          rw [hd3] at h hsp3
          simp only [] at h
          by_cases hdn : d = '\n'
          · subst hdn
            rw [if_pos rfl] at h
            simp only [Option.some.injEq, Prod.mk.injEq] at h
            obtain ⟨hkv, hr⟩ := h
            subst hr
            refine ⟨k ++ sp1 ++ '=' :: (sp2 ++ v1), ?_⟩
            rw [hcs, ← hsp, ← hsp2, ← hsp3]
            simp
          · rw [if_neg hdn] at h; simp at h
      · rw [if_neg hc] at h; simp at h

theorem lineRule_split (cs : List Char) (l : Line) (rest : List Char)
    (h : lineRule cs = some (l, rest)) : ∃ pre, cs = pre ++ '\n' :: rest := by
  rw [lineRule] at h
  cases hb : lineBlank cs with
  | some r =>
    rw [hb] at h
    simp only [Option.some.injEq, Prod.mk.injEq] at h
    obtain ⟨hl, hr⟩ := h
    subst hr
    exact ⟨[], lineBlank_split cs r hb⟩
  | none =>
    rw [hb] at h
    cases hcm : lineComment cs with
    | some p =>
      obtain ⟨s, r⟩ := p
      rw [hcm] at h
      simp only [Option.some.injEq, Prod.mk.injEq] at h
      obtain ⟨hl, hr⟩ := h
      subst hr
      exact lineComment_split cs s r hcm
    | none =>
      rw [hcm] at h
      cases hg : lineGroupHeader cs with
      | some p =>
        obtain ⟨s, r⟩ := p
        rw [hg] at h
        simp only [Option.some.injEq, Prod.mk.injEq] at h
        obtain ⟨hl, hr⟩ := h
        subst hr
        exact lineGroupHeader_split cs s r hg
      | none =>
        rw [hg] at h
        cases hent : lineEntry cs with
        | some p =>
          obtain ⟨kv, r⟩ := p
          rw [hent] at h
          simp only [Option.some.injEq, Prod.mk.injEq] at h
          obtain ⟨hl, hr⟩ := h
          subst hr
          exact lineEntry_split cs kv r hent
        | none => rw [hent] at h; simp at h

theorem fileAux_ends (fuel : Nat) (cs : List Char) (lines : List Line)
    (h : fileAux fuel cs = some lines) : cs = [] ∨ ∃ pre, cs = pre ++ ['\n'] := by
  induction fuel generalizing cs lines with
  | zero =>
    cases cs with
    | nil => exact Or.inl rfl
    | cons c t => simp [fileAux] at h
  | succ fuel ih =>
    cases cs with
    | nil => exact Or.inl rfl
    | cons c t =>
      rw [fileAux] at h
      cases hl : lineRule (c :: t) with
      | none => rw [hl] at h; simp at h
      | some p =>
        obtain ⟨l, rest⟩ := p
        rw [hl] at h
        simp only [] at h
        cases hrec : fileAux fuel rest with
        | none => rw [hrec] at h; simp at h
        | some tail =>
          obtain ⟨pre, hpre⟩ := lineRule_split (c :: t) l rest hl
          cases ih rest tail hrec with
          | inl hnil =>
            subst hnil
            exact Or.inr ⟨pre, hpre⟩
          | inr hend =>
            obtain ⟨pre2, hpre2⟩ := hend
            refine Or.inr ⟨pre ++ '\n' :: pre2, ?_⟩
            rw [hpre, hpre2]
            simp

theorem stringItems_ne_nil (fuel : Nat) (cs : List Char) : stringItems fuel cs ≠ [] := by
  cases fuel with
  | zero => simp [stringItems]
  | succ f =>
    rw [stringItems]
    split <;> simp

theorem quotedBody_none (cs : List Char) (h1 : '"' ∉ cs) (h2 : '\\' ∉ cs) :
    quotedBody cs = none := by
  induction cs with
  | nil => rfl
  | cons c r ih =>
    simp only [List.mem_cons, not_or] at h1 h2
    rw [quotedBody.eq_def]
    simp only []
    rw [if_neg (fun hh => h1.1 hh.symm), if_neg (fun hh => h2.1 hh.symm), ih h1.2 h2.2]
    rfl

theorem stringRaw_id (cs : List Char) (h : '\\' ∉ cs) : stringRaw cs = cs := by
  induction cs with
  | nil => rfl
  | cons c r ih =>
    simp only [List.mem_cons, not_or] at h
    rw [stringRaw.eq_def]
    simp only []
    rw [if_neg (fun hh => h.1 hh.symm), ih h.2]

/-! ## Claim theorems -/

/-- Claim C1 (corrected): the claimed if-and-only-if fails.  The input
whose lines are `k=v`, `[g]`, `[g]` contains a group-header line that
re-declares `g`, yet assembly fails with the entry-outside-of-group
error for `k` (the first violation wins), not with duplicate-group `g`. -/
theorem claim_C1_counterexample :
    fileS "k=v\n[g]\n[g]\n" =
      some [Line.entry "k" "v", Line.groupHeader "g", Line.groupHeader "g"]
    ∧ parseS "k=v\n[g]\n[g]\n" = Except.error (DesktopFileError.entryOutsideOfGroup "k")
    ∧ DesktopFileError.entryOutsideOfGroup "k" ≠ DesktopFileError.duplicateGroup "g" :=
  ⟨rfl, rfl, by decide⟩

/-- Claim C1 (amended): a duplicate-group error naming `g` arises only
when the line sequence declares `g` in two group-header lines; a header
re-declaring a group of a successfully assembled prefix does fail with
duplicate-group; the spec example fails with duplicate-group `g` while
the reordering in which `[g]` appears once succeeds; the first violation
is terminal and an error carries no document. -/
theorem claim_C1_amended :
    (∀ (lines : List Line) (g : String),
       assembleLines lines = Except.error (DesktopFileError.duplicateGroup g) →
       2 ≤ countHeader g lines)
    ∧ (∀ (pf : List Line) (doc : Document) (g : String) (rest : List Line),
       assembleLines pf = Except.ok doc → (assocFind g doc).isSome →
       assembleLines (pf ++ Line.groupHeader g :: rest) =
         Except.error (DesktopFileError.duplicateGroup g))
    ∧ parseS "[g]\nk=v\n[h]\nk2=v2\n[g]\nk3=v3\n" =
        Except.error (DesktopFileError.duplicateGroup "g")
    ∧ parseS "[g]\nk=v\n[h]\nk2=v2\nk3=v3\n" =
        Except.ok [("g", [("k", "v")]), ("h", [("k2", "v2"), ("k3", "v3")])]
    ∧ (∀ (s : String) (e : DesktopFileError),
       parseS s = Except.error e → ∀ d : Document, parseS s ≠ Except.ok d) := by
  refine ⟨?_, ?_, rfl, rfl, ?_⟩
  · intro lines g h
    rw [assembleLines] at h
    cases hr : runLines ⟨[], none⟩ lines with
    | ok st => rw [hr] at h; simp [Except.map] at h
    | error e =>
      rw [hr] at h
      simp only [Except.map, Except.error.injEq] at h
      subst h
      have := runLines_dup_count lines ⟨[], none⟩ g hr
      simpa [assocFind] using this
  · intro pf doc g rest hok hsome
    rw [assembleLines] at hok
    cases hr : runLines ⟨[], none⟩ pf with
    | error e => rw [hr] at hok; simp [Except.map] at hok
    | ok st =>
      rw [hr] at hok
      simp only [Except.map, Except.ok.injEq] at hok
      rw [assembleLines, runLines_append, hr]
      simp only []
      rw [runLines]
      have hs : (assocFind g st.groups).isSome = true := by rw [hok]; exact hsome
      rw [stepLine, if_pos hs]
      rfl
  · intro s e h d hd
    rw [h] at hd
    exact Except.noConfusion hd

/-- Claim C1 witness: a line sequence declaring `g` twice whose assembly
fails with duplicate-group `g` indeed counts two `[g]` headers. -/
theorem claim_C1_witness :
    2 ≤ countHeader "g" [Line.groupHeader "g", Line.groupHeader "g"] :=
  claim_C1_amended.1 [Line.groupHeader "g", Line.groupHeader "g"] "g" rfl

/-- Claim C2 (confirmed): locale-aware lookup tries the candidate keys
in the fixed order lang_COUNTRY\x40MODIFIER, lang_COUNTRY, lang\x40MODIFIER,
lang, bare key (dropping absent components), returning the first one
present and none if none is present; with keys Name, Name[sr],
Name[sr_YU], Name[sr\x40Latn] the descriptor (sr, YU, Latn) resolves to the
Name[sr_YU] value and (de) to the unsuffixed Name value. -/
theorem claim_C2 :
    (∀ (entries : GroupEntries) (k l c m : String),
       getRaw entries (Key.localized ⟨k, l, some c, some m⟩) =
         [k ++ "[" ++ l ++ "_" ++ c ++ "@" ++ m ++ "]",
          k ++ "[" ++ l ++ "_" ++ c ++ "]",
          k ++ "[" ++ l ++ "@" ++ m ++ "]",
          k ++ "[" ++ l ++ "]",
          k].findSome? (fun key => assocFind key entries))
    ∧ (∀ (entries : GroupEntries) (k l c : String),
       getRaw entries (Key.localized ⟨k, l, some c, none⟩) =
         [k ++ "[" ++ l ++ "_" ++ c ++ "]", k ++ "[" ++ l ++ "]",
          k].findSome? (fun key => assocFind key entries))
    ∧ (∀ (entries : GroupEntries) (k l m : String),
       getRaw entries (Key.localized ⟨k, l, none, some m⟩) =
         [k ++ "[" ++ l ++ "@" ++ m ++ "]", k ++ "[" ++ l ++ "]",
          k].findSome? (fun key => assocFind key entries))
    ∧ (∀ (entries : GroupEntries) (k l : String),
       getRaw entries (Key.localized ⟨k, l, none, none⟩) =
         [k ++ "[" ++ l ++ "]", k].findSome? (fun key => assocFind key entries))
    ∧ getRaw [("Name", "default value"), ("Name[sr]", "localized sr"),
        ("Name[sr_YU]", "localized sr_YU"), ("Name[sr@Latn]", "localized sr@Latn")]
        (Key.localized ⟨"Name", "sr", some "YU", some "Latn"⟩) = some "localized sr_YU"
    ∧ getRaw [("Name", "default value"), ("Name[sr]", "localized sr"),
        ("Name[sr_YU]", "localized sr_YU"), ("Name[sr@Latn]", "localized sr@Latn")]
        (Key.localized ⟨"Name", "de", none, none⟩) = some "default value"
    ∧ (∀ (entries : GroupEntries) (lk : LocalizedKey),
       (∀ ck ∈ lk.matches, assocFind ck entries = none) →
       getRaw entries (Key.localized lk) = none) := by
  refine ⟨fun entries k l c m => rfl, fun entries k l c => rfl, fun entries k l m => rfl,
    fun entries k l => rfl, rfl, rfl, ?_⟩
  intro entries lk h
  rw [getRaw]
  exact List.findSome?_eq_none_iff.mpr h

/-- Claim C2 witness: looking a localized key up in an empty group
yields none. -/
theorem claim_C2_witness :
    getRaw [] (Key.localized ⟨"Name", "de", none, none⟩) = none :=
  claim_C2.2.2.2.2.2.2 [] ⟨"Name", "de", none, none⟩ (fun _ _ => rfl)

/-- Claim C3 (confirmed): the string-list decoder splits on unescaped
semicolons, decodes the escapes inside each element, drops a trailing
empty element only when it is not the only one, and never yields an
empty list. -/
theorem claim_C3 :
    (∀ cs : List Char, 1 ≤ (stringsRaw cs).length)
    ∧ stringsS "dog\\;cat;bird;" = ["dog;cat", "bird"]
    ∧ stringsS "" = [""]
    ∧ stringsS ";" = [""]
    ∧ stringsS "dog;cat;bird" = ["dog", "cat", "bird"]
    ∧ stringsS "a;" = ["a"]
    ∧ stringsS "a;;" = ["a", ""]
    ∧ stringsS "a\\sb;c\\\\d" = ["a b", "c\\d"] := by
  refine ⟨?_, rfl, rfl, rfl, rfl, rfl, rfl, rfl⟩
  intro cs
  simp only [stringsRaw]
  have hne : (stringItems (cs.length + 1) cs).map List.asString ≠ [] := by
    intro hh
    exact stringItems_ne_nil (cs.length + 1) cs (List.map_eq_nil_iff.mp hh)
  by_cases hc : 1 < ((stringItems (cs.length + 1) cs).map List.asString).length ∧
      ((stringItems (cs.length + 1) cs).map List.asString).getLast? = some ""
  · rw [if_pos hc]
    have h1 := hc.1
    rw [List.length_dropLast]
    omega
  · rw [if_neg hc]
    have := List.length_pos.mpr hne
    omega

/-- Claim C4 (corrected): the grammar does not classify a
whitespace-then-linefeed line as blank; such a line matches no rule and
the whole parse fails. -/
theorem claim_C4_counterexample :
    lineS " \n" = none ∧ fileS " \n" = none ∧ fileS "\t\n" = none :=
  ⟨rfl, rfl, rfl⟩

/-- Claim C4 (amended): the blank rule accepts exactly a lone line-feed;
a line holding a space or tab before the line-feed matches no line rule
and fails the grammar. -/
theorem claim_C4_amended :
    (∀ cs rest : List Char, lineBlank cs = some rest ↔ cs = '\n' :: rest)
    ∧ fileS "\n" = some [Line.blank]
    ∧ lineS "\n" = some (Line.blank, [])
    ∧ fileS " \n" = none
    ∧ fileS "\t\n" = none := by
  refine ⟨?_, rfl, rfl, rfl, rfl⟩
  intro cs rest
  constructor
  · exact lineBlank_split cs rest
  · intro h
    subst h
    simp [lineBlank]

/-- Claim C5 (corrected): the plain-string decoder is not the identity;
it rewrites the escape `\s` to a space. -/
theorem claim_C5_counterexample :
    stringS "\\s" = " " ∧ stringS "\\s" ≠ "\\s" :=
  ⟨rfl, by decide⟩

/-- Claim C5 (amended): the plain-string decoder always succeeds; it
rewrites the escapes `\s \n \t \r \\` to space, line-feed, tab,
carriage-return and backslash, and leaves every other character,
including semicolons and backslashes not starting a recognized escape,
unchanged; on backslash-free input it is the identity. -/
theorem claim_C5_amended :
    (∀ cs : List Char, '\\' ∉ cs → stringRaw cs = cs)
    ∧ stringS "\\s" = " "
    ∧ stringS "\\n" = "\n"
    ∧ stringS "\\t" = "\t"
    ∧ stringS "\\r" = "\r"
    ∧ stringS "\\\\" = "\\"
    ∧ stringS "a\\;b" = "a\\;b"
    ∧ stringS "a\\xb" = "a\\xb"
    ∧ stringS "a \\s b \\n c \\t d \\r e \\\\ f" = "a   b \n c \t d \r e \\ f" :=
  ⟨stringRaw_id, rfl, rfl, rfl, rfl, rfl, rfl, rfl, rfl⟩

/-- Claim C5 witness: the decoder is the identity on a backslash-free
value. -/
theorem claim_C5_witness : stringRaw ['d', 'o', 'g'] = ['d', 'o', 'g'] :=
  claim_C5_amended.1 ['d', 'o', 'g'] (by decide)

/-- Claim C6 (corrected): a token opening a quote that is never closed
is not a parse error; the ordered choice falls through to the
bare-literal rule, which accepts the token verbatim, quote included. -/
theorem claim_C6_counterexample :
    execS "p \"a" = some ("p", [ExecArgument.str "\"a"])
    ∧ execS "p \"a" ≠ none :=
  ⟨rfl, by decide⟩

/-- Claim C6 (amended): an argument token with an unterminated quote
falls through to the bare-literal case and is taken verbatim, as does
every token matching neither the placeholder-code nor the quoted form;
decode failures do exist, but only from committed matches leaving
residual input (text after a closed quote inside a token, or an empty
token between separators). -/
theorem claim_C6_amended :
    (∀ cs : List Char, '"' ∉ cs → '\\' ∉ cs →
       argumentRule ('"' :: cs) = bareArg ('"' :: cs))
    ∧ (∀ (c : Char) (rest : List Char), c ≠ '%' → c ≠ '"' →
       argumentRule (c :: rest) = bareArg (c :: rest))
    ∧ execS "p \"a" = some ("p", [ExecArgument.str "\"a"])
    ∧ execS "p \"a b" = some ("p", [ExecArgument.str "\"a", ExecArgument.str "b"])
    ∧ execS "p \"a\"b" = none
    ∧ execS "p  x" = none := by
  refine ⟨?_, ?_, rfl, rfl, rfl, rfl⟩
  · intro cs h1 h2
    rw [argumentRule]
    have hf : fieldCodeArg ('"' :: cs) = none := by
      cases cs with
      | nil => rfl
      | cons d r =>
        rw [fieldCodeArg]
        rw [if_neg (by decide)]
    have hq : quotedArg ('"' :: cs) = none := by
      rw [quotedArg, if_pos rfl, quotedBody_none cs h1 h2]
      rfl
    rw [hf]
    simp only []
    rw [hq]
  · intro c rest h1 h2
    rw [argumentRule]
    have hf : fieldCodeArg (c :: rest) = none := by
      cases rest with
      | nil => rfl
      | cons d r =>
        rw [fieldCodeArg]
        rw [if_neg h1]
    have hq : quotedArg (c :: rest) = none := by
      rw [quotedArg, if_neg h2]
    rw [hf]
    simp only []
    rw [hq]

/-- Claim C6 witness: a concrete unterminated-quote token decodes via
the bare-literal fallthrough. -/
theorem claim_C6_witness :
    argumentRule ('"' :: ['a', 'b']) = bareArg ('"' :: ['a', 'b']) :=
  claim_C6_amended.1 ['a', 'b'] (by decide) (by decide)

/-- Claim C7 (confirmed): the first space-delimited token is the program
taken verbatim, never placeholder- or quote-decoded; a remaining token
of percent followed by one non-space character is a placeholder code
unless the character is another percent, which denotes a literal
percent; the two spec examples decode accordingly. -/
theorem claim_C7 :
    execS "kate -b %U" = some ("kate", [ExecArgument.str "-b", ExecArgument.fieldCode 'U'])
    ∧ execS "program x %% y" =
        some ("program", [ExecArgument.str "x", ExecArgument.str "%", ExecArgument.str "y"])
    ∧ (∀ (c : Char) (rest : List Char), c ≠ ' ' →
       argumentRule ('%' :: c :: rest) =
         some (if c = '%' then ExecArgument.str "%" else ExecArgument.fieldCode c, rest))
    ∧ execS "%U x" = some ("%U", [ExecArgument.str "x"])
    ∧ execS "\"a\" \"b\"" = some ("\"a\"", [ExecArgument.str "b"]) := by
  refine ⟨rfl, rfl, ?_, rfl, rfl⟩
  intro c rest h
  rw [argumentRule, fieldCodeArg, if_pos rfl, if_neg h]

/-- Claim C7 witness: percent-U is a placeholder code. -/
theorem claim_C7_witness :
    argumentRule ['%', 'U'] =
      some (if 'U' = '%' then ExecArgument.str "%" else ExecArgument.fieldCode 'U', []) :=
  claim_C7.2.2.1 'U' [] (by decide)

/-- Claim C8 (corrected): the locale-suffix interior is zero or more
characters, not one or more: the line `key[]=v` is accepted, with the
empty suffix kept in the stored key. -/
theorem claim_C8_counterexample :
    lineEntryS "key[]=v\n" = some (("key[]", "v"), []) :=
  rfl

/-- Claim C8 (amended): an entry key is one or more characters of
A-Z a-z 0-9 hyphen, optionally followed by a bracketed suffix of zero or
more characters of A-Z a-z 0-9 hyphen underscore at-sign; the suffix is
kept as part of the stored key, keys outside the alphabet or empty keys
are rejected, and a suffix not at the end of the key is rejected. -/
theorem claim_C8_amended :
    (∀ (k loc v : List Char), k ≠ [] → (∀ c ∈ k, isKeyChar c = true) →
       (∀ c ∈ loc, isLocaleChar c = true) → (∀ c ∈ v, c ≠ '\n') →
       v.head? ≠ some ' ' →
       lineEntry (k ++ '[' :: (loc ++ [']']) ++ '=' :: (v ++ ['\n'])) =
         some (((k ++ '[' :: (loc ++ [']'])).asString, v.asString), []))
    ∧ lineEntryS "key[]=v\n" = some (("key[]", "v"), [])
    ∧ lineEntryS "key[en_AU@Latn]=value\n" = some (("key[en_AU@Latn]", "value"), [])
    ∧ lineEntryS "k_ey=value\n" = none
    ∧ lineEntryS "=value\n" = none
    ∧ lineEntryS "ke[locale]y=value\n" = none := by
  refine ⟨?_, rfl, rfl, rfl, rfl, rfl⟩
  intro k loc v hk hkc hlc hvn hvs
  have h1 := twdw_append isKeyChar k ('[' :: (loc ++ ']' :: '=' :: (v ++ ['\n']))) hkc
    (by intro d hd; simp at hd; subst hd; decide)
  have h2 := twdw_append isLocaleChar loc (']' :: '=' :: (v ++ ['\n'])) hlc
    (by intro d hd; simp at hd; subst hd; decide)
  have harr : k ++ '[' :: (loc ++ [']']) ++ '=' :: (v ++ ['\n']) =
      k ++ '[' :: (loc ++ ']' :: '=' :: (v ++ ['\n'])) := by simp
  rw [harr]
  have hky : keyRule (k ++ '[' :: (loc ++ ']' :: '=' :: (v ++ ['\n']))) =
      some (k ++ '[' :: (loc ++ [']']), '=' :: (v ++ ['\n'])) := by
    simp only [keyRule]
    rw [h1.1, h1.2]
    rw [if_neg (by simpa [List.isEmpty_iff] using hk)]
    simp only []
    rw [if_pos trivial]
    rw [h2.1, h2.2]
    simp only []
    rw [if_pos trivial]
  rw [lineEntry, hky]
  simp only []
  have h3 : ('=' :: (v ++ ['\n'])).dropWhile (fun d => decide (d = ' ')) =
      '=' :: (v ++ ['\n']) :=
    dropWhile_head_false _ _ (by intro d hd; simp at hd; subst hd; decide)
  rw [h3]
  simp only []
  rw [if_pos trivial]
  have h4 : (v ++ ['\n']).dropWhile (fun d => decide (d = ' ')) = v ++ ['\n'] := by
    apply dropWhile_head_false
    intro d hd
    cases v with
    | nil =>
      simp at hd
      subst hd
      decide
    | cons a t =>
      have ha : a ≠ ' ' := by
        intro hh
        apply hvs
        rw [hh]
        rfl
      simp at hd
      subst hd
      simp [ha]
  rw [h4]
  have h5 := twdw_append (fun d => decide (d ≠ '\n')) v ['\n']
    (by intro c hc; simpa using hvn c hc)
    (by intro d hd; simp at hd; subst hd; decide)
  rw [h5.1, h5.2]
  simp only []
  rw [if_pos trivial]

/-- Claim C8 witness: the concrete line `key[]=v` followed by a
line-feed parses to the stored key `key[]` and value `v`. -/
theorem claim_C8_witness :
    lineEntry ("key".data ++ '[' :: ([] ++ [']']) ++ '=' :: ("v".data ++ ['\n'])) =
      some ((("key".data ++ '[' :: ([] ++ [']'])).asString, "v".data.asString), []) :=
  claim_C8_amended.1 "key".data [] "v".data (by decide) (by decide) (by decide)
    (by decide) (by decide)

/-- Claim C9 (confirmed): the empty input parses to the empty document,
a lone line-feed parses as one blank line and the empty document, and
any non-empty input whose final character is not a line-feed fails the
grammar. -/
theorem claim_C9 :
    parseS "" = Except.ok []
    ∧ fileS "\n" = some [Line.blank]
    ∧ parseS "\n" = Except.ok []
    ∧ (∀ (cs : List Char) (c : Char), c ≠ '\n' →
       parseDesktopFile (cs ++ [c]) = Except.error DesktopFileError.parseFail) := by
  refine ⟨rfl, rfl, rfl, ?_⟩
  intro cs c hc
  rw [parseDesktopFile]
  cases hf : fileRule (cs ++ [c]) with
  | none => rfl
  | some lines =>
    exfalso
    rw [fileRule] at hf
    rcases fileAux_ends _ _ _ hf with hnil | ⟨pre, hpre⟩
    · exact absurd hnil (by simp)
    · have hrev := congrArg List.reverse hpre
      simp [List.reverse_append] at hrev
      exact hc hrev.1

/-- Claim C9 witness: the one-character input `a` (no trailing
line-feed) fails the grammar. -/
theorem claim_C9_witness :
    parseDesktopFile ([] ++ ['a']) = Except.error DesktopFileError.parseFail :=
  claim_C9.2.2.2 [] 'a' (by decide)

/-- Claim C10 (confirmed): Exec decoding first runs the raw value
through the plain-string decoder and only then tokenizes: the escape
`\s` inside a stored Exec value becomes a space and so splits a token,
and a double backslash is consumed once by the string stage before the
quoted-argument unescaping consumes the remaining one. -/
theorem claim_C10 :
    (∀ v : String, execFromValue v =
       (execRule (stringRaw v.data)).map (fun pa => Exec.mk pa.1 pa.2))
    ∧ execFromValue "a\\sb %f" = some ⟨"a", [ExecArgument.str "b", ExecArgument.fieldCode 'f']⟩
    ∧ execS "a\\sb %f" = some ("a\\sb", [ExecArgument.fieldCode 'f'])
    ∧ stringS "p \"a\\\\b\"" = "p \"a\\b\""
    ∧ execFromValue "p \"a\\\\b\"" = some ⟨"p", [ExecArgument.str "ab"]⟩ :=
  ⟨fun _ => rfl, rfl, rfl, rfl, rfl⟩

end Toffee
